import Mathlib

/-!
Shallow embedding of the side-by-side diff layout engine in
`src/kittens/diff/render.py` (kitty's diff kitten renderer).

Python strings are modelled as `List Char` (Python strings are sequences of
code points, and all slicing in the source is by code-point offset).
Styled output is modelled as lists of `Cell`s carrying the style name and the
cell text: per the width contract, ANSI style escape sequences are zero-width,
so display width is the sum of the cell texts' widths.

The display-width calculator (`wcswidth`, `truncate_point_for_length`) lives in
`kitty.fast_data_types` (C code of this repository, not under `src/`), and
`even_up_sides` lives in `kittens/diff/git.py` (also not under `src/`); those
are modelled from the spec, as marked on their doc comments.  The width of a
single character is kept abstract as a parameter `cw : Char → Nat`, matching
the spec contract (wide glyph 2, zero-width mark 0, ordinary glyph 1): theorems
take the facts they need about `cw` as hypotheses.
-/

namespace KittyDiffRender

/-- The control ranges matched by `sanitize_pat`, the regex
compiled from the character class x00-x1f, x7f, x80-x9f. -/
def isCtrl (c : Char) : Bool :=
  c.toNat ≤ 0x1f || c.toNat == 0x7f || (0x80 ≤ c.toNat && c.toNat ≤ 0x9f)

/-- The sixteen lowercase hexadecimal digit characters, in value order. -/
def hexDigits : List Char := "0123456789abcdef".toList

/-- The lowercase hexadecimal digit for a value below 16. -/
def hexDigitChar (n : Nat) : Char := hexDigits.getD n '0'

/-- Hexadecimal digit extraction with explicit fuel, structurally recursive
so that concrete instances evaluate by reduction. -/
def toHexAux : Nat → Nat → List Char
  | 0, n => [hexDigitChar n]
  | fuel + 1, n =>
    if n < 16 then [hexDigitChar n]
    else toHexAux fuel (n / 16) ++ [hexDigitChar (n % 16)]

/-- Lowercase hexadecimal rendering of a natural number with no leading
zeros, as produced by the Python format specifier used in `sanitize_sub`.
The value itself is always enough fuel: the argument drops by a factor of 16
at each step. -/
def toHex (n : Nat) : List Char := toHexAux n n

/-- `sanitize_sub`: the replacement for one matched control character. -/
def sanitize_sub (c : Char) : List Char := '<' :: (toHex c.toNat ++ ['>'])

/-- `sanitize`: `sanitize_pat.sub(sanitize_sub, text)`.  The pattern is a
single-character class, so the substitution is character-wise. -/
def sanitize (text : List Char) : List Char :=
  text.flatMap fun c => if isCtrl c then sanitize_sub c else [c]

/-- Modelled from the spec: `wcswidth` from `kitty.fast_data_types` (C code of
this repository, not under `src/`).  Per the width-calculator contract the
display width of a text is the sum of its characters' widths. -/
def wcswidth (cw : Char → Nat) (text : List Char) : Nat := (text.map cw).sum

/-- Modelled from the spec: `truncate_point_for_length` from
`kitty.fast_data_types` (C code of this repository, not under `src/`).
Per the contract it returns the length of the longest prefix whose display
width does not exceed the requested column count, never splitting a
character.  Widths are nonnegative, so the greedy walk below computes it. -/
def truncate_point_for_length (cw : Char → Nat) : List Char → Nat → Nat
  | [], _ => 0
  | c :: cs, n =>
    if cw c ≤ n then truncate_point_for_length cw cs (n - cw c) + 1 else 0

/-- `fit_in`: return the text unchanged when the cut point covers it all,
otherwise cut (re-cutting at `count - 1` when `count > 1`) and append an
ellipsis. -/
def fit_in (cw : Char → Nat) (text : List Char) (count : Nat) : List Char :=
  let p := truncate_point_for_length cw text count
  if p ≥ text.length then text
  else
    let p := if count > 1 then truncate_point_for_length cw text (count - 1) else p
    text.take p ++ ['…']

/-- `fill_in`: pad with spaces up to the requested size when narrower. -/
def fill_in (cw : Char → Nat) (text : List Char) (sz : Nat) : List Char :=
  let w := wcswidth cw text
  if w < sz then text ++ List.replicate (sz - w) ' ' else text

/-- `place_in`: fit, then fill. -/
def place_in (cw : Char → Nat) (text : List Char) (sz : Nat) : List Char :=
  fill_in cw (fit_in cw text sz) sz

/-! ### split_to_size -/

/-- One iteration of the `split_to_size` loop body: the segment yielded and
the rest of the line. -/
def split_step (cw : Char → Nat) (width : Nat) (line : List Char) :
    List Char × List Char :=
  (line.take (truncate_point_for_length cw line width),
   line.drop (truncate_point_for_length cw line width))

/-- The rest of the line after `n` iterations of the loop body. -/
def split_rem (cw : Char → Nat) (width : Nat) : Nat → List Char → List Char
  | 0, line => line
  | n + 1, line => split_rem cw width n (split_step cw width line).2

/-- The `split_to_size` loop terminates on a line iff some number of
iterations exhausts it. -/
def split_terminates (cw : Char → Nat) (width : Nat) (line : List Char) : Prop :=
  ∃ n, split_rem cw width n line = []

/-- `split_to_size` with explicit fuel: the `while line:` loop runs while the
line is nonempty, yielding the prefix at the cut point and looping on the
rest.  The Python generator has no fuel; this materializes its first `fuel`
segments, hence all of them whenever the loop exhausts the line within `fuel`
iterations. -/
def splitFuel (cw : Char → Nat) (width : Nat) : Nat → List Char → List (List Char)
  | _, [] => []
  | 0, _ :: _ => []
  | fuel + 1, c :: cs =>
    let p := truncate_point_for_length cw (c :: cs) width
    (c :: cs).take p :: splitFuel cw width fuel ((c :: cs).drop p)

/-- `list(split_to_size(line, width))` materialized with the line's length as
fuel; enough fuel whenever every character of the line fits the width (see
`split_rem_eq_nil_of_fits`). -/
def split_to_size (cw : Char → Nat) (line : List Char) (width : Nat) :
    List (List Char) :=
  splitFuel cw width line.length line

/-! ### Styled cells, rows and the data model -/

/-- A styled cell: the style name applied by a `format_func` closure, and the
cell text.  The ANSI escape sequences the closure wraps around the text are
zero-width per the width contract, so they are carried as the style name
rather than as characters. -/
structure Cell where
  style : String
  text : List Char
deriving DecidableEq

/-- A row is a concatenation of styled cells; its display width is the sum of
its cells' text widths (style escapes are zero-width). -/
def rowWidth (cw : Char → Nat) (row : List Cell) : Nat :=
  (row.map fun c => wcswidth cw c.text).sum

structure HunkRef where
  hunk_num : Nat
  line_num : Nat
deriving DecidableEq

structure Reference where
  path : String
  extra : Option HunkRef
deriving DecidableEq

/-- A produced display line: the styled row and its back-reference. -/
structure Line where
  text : List Cell
  ref : Reference
deriving DecidableEq

/-- A hunk as produced by the external diff engine: parallel sequences of
(optional line number, is-change flag) pairs. -/
structure Hunk where
  left_lines : List (Option Nat × Bool)
  right_lines : List (Option Nat × Bool)
deriving DecidableEq

/-- A per-file patch: its hunks and its largest line number. -/
structure Patch where
  hunks : List Hunk
  largest_line_number : Nat

/-! ### Row rendering -/

/-- `margin_bg_map`: row type to margin style.  The source is a dict with
exactly these four keys; every call site passes one of the four row types, so
the catch-all arm (standing in for the dict's `KeyError`) is unreachable. -/
def margin_bg_map : String → String
  | "filler" => "filler"
  | "remove" => "removed_margin"
  | "add" => "added_margin"
  | _ => "margin"

/-- `text_bg_map`: row type to content style; same dict remark as for
`margin_bg_map`, with the catch-all arm covering the key "context". -/
def text_bg_map : String → String
  | "filler" => "filler"
  | "remove" => "removed"
  | "add" => "added"
  | _ => "text"

/-- The Python expression `str(number or '')` for an optional line number:
both `None` and `0` are falsy, so both render as the empty string. -/
def numStr : Option Nat → List Char
  | none => []
  | some n => if n = 0 then [] else (toString n).toList

/-- `render_diff_line`: a margin cell holding the line number placed to the
margin size, then a content cell filled to the available columns.  (The
source's `text or ''` equals `text` itself: both branches agree on
strings.) -/
def render_diff_line (cw : Char → Nat) (number : Option Nat) (text : List Char)
    (ltype : String) (margin_size available_cols : Nat) : List Cell :=
  [⟨margin_bg_map ltype, place_in cw (numStr number) margin_size⟩,
   ⟨text_bg_map ltype, fill_in cw text available_cols⟩]

/-- The left row type chosen by `render_diff_pair`: filler exactly when the
line number is `None`. -/
def ltype_of (left_line_number : Option Nat) (left_is_change : Bool) : String :=
  match left_line_number with
  | none => "filler"
  | some _ => if left_is_change then "remove" else "context"

/-- The right row type chosen by `render_diff_pair`: filler exactly when the
line number is `None`. -/
def rtype_of (right_line_number : Option Nat) (right_is_change : Bool) : String :=
  match right_line_number with
  | none => "filler"
  | some _ => if right_is_change then "add" else "context"

/-- `render_diff_pair`: the left and right rendered halves concatenated; the
line numbers are shown only on the first wrapped row. -/
def render_diff_pair (cw : Char → Nat) (left_line_number : Option Nat)
    (left : List Char) (left_is_change : Bool) (right_line_number : Option Nat)
    (right : List Char) (right_is_change : Bool) (is_first : Bool)
    (margin_size available_cols : Nat) : List Cell :=
  render_diff_line cw (if is_first then left_line_number else none) left
      (ltype_of left_line_number left_is_change) margin_size available_cols ++
    render_diff_line cw (if is_first then right_line_number else none) right
      (rtype_of right_line_number right_is_change) margin_size available_cols

/-- Modelled from the spec: `even_up_sides` from `kittens/diff/git.py` (code
of this repository not under `src/`).  Per the align contract it pads the
shorter sequence with the filler value until both reach the larger length;
the source mutates its arguments, modelled here by returning the pair. -/
def even_up_sides {α : Type} (l r : List α) (filler : α) : List α × List α :=
  let n := max l.length r.length
  (l ++ List.replicate (n - l.length) filler,
   r ++ List.replicate (n - r.length) filler)

/-- The rows `lines_for_diff` produces for one hunk line pair: wrap each
present side's looked-up text, even up the two wrapped sequences with empty
fillers, and render each aligned segment pair (numbers on the first row
only).  The stores are the two files' `lines_for_path` sequences. -/
def pair_rows (cw : Char → Nat) (left_store right_store : Nat → List Char)
    (available_cols margin_size : Nat)
    (pair : (Option Nat × Bool) × (Option Nat × Bool)) : List (List Cell) :=
  let left_wrapped_lines :=
    match pair.1.1 with
    | none => []
    | some k => split_to_size cw (left_store k) available_cols
  let right_wrapped_lines :=
    match pair.2.1 with
    | none => []
    | some k => split_to_size cw (right_store k) available_cols
  let evened := even_up_sides left_wrapped_lines right_wrapped_lines []
  (evened.1.zip evened.2).enum.map fun ip =>
    render_diff_pair cw pair.1.1 ip.2.1 pair.1.2 pair.2.1 ip.2.2 pair.2.2
      (ip.1 == 0) margin_size available_cols

/-- `lines_for_diff`: for each hunk and each zipped line pair, emit the
pair's rows tagged with the hunk and line indices.  Python's `zip` stops at
the shorter of `left_lines` and `right_lines`, as does `List.zip`. -/
def lines_for_diff (cw : Char → Nat) (left_path right_path : String)
    (lines_for_path : String → Nat → List Char) (hunks : List Hunk)
    (columns margin_size : Nat) : List Line :=
  let available_cols := columns / 2 - margin_size
  hunks.enum.flatMap fun hp =>
    (hp.2.left_lines.zip hp.2.right_lines).enum.flatMap fun lp =>
      (pair_rows cw (lines_for_path left_path) (lines_for_path right_path)
          available_cols margin_size lp.2).map fun row =>
        Line.mk row (Reference.mk left_path (some (HunkRef.mk hp.1 lp.1)))

/-- `binary_lines`: one row per binary file pair; for each side, margin
spaces then the placed summary text.  The summary (`Binary file:` with the
human-readable size of the external `data_for_path` content) passes through
Python float formatting, so it is abstracted as the text `txt` per path; the
properties proved below depend only on its placed width. -/
def binary_lines (cw : Char → Nat) (txt : String → List Char)
    (path other_path : String) (columns margin_size : Nat) : List Cell :=
  let fl := fun p =>
    [Cell.mk "margin" (List.replicate margin_size ' '),
     Cell.mk "text" (place_in cw (txt p) (columns / 2 - margin_size))]
  fl path ++ fl other_path

/-- `title_lines`: the styled file-name bar, a full-width rule and one blank
row.  `path_name_map` is an external collaborator, abstracted as `name_of`;
only the left path, columns and margin size are used by the source. -/
def title_lines (cw : Char → Nat) (name_of : String → List Char)
    (left_path : String) (columns margin_size : Nat) : List (List Cell) :=
  let name := fit_in cw (sanitize (name_of left_path)) (columns - 2 * margin_size)
  [[⟨"title", place_in cw (' ' :: name) columns⟩],
   [⟨"title", List.replicate columns '━'⟩],
   [⟨"title", List.replicate columns ' '⟩]]

/-- The first pass of `render_diff`: fold the largest line number over all
diff entries present in the diff map. -/
def largest_line_number_of (collection : List (String × String × String))
    (diff_map : String → Option Patch) : Nat :=
  collection.foldl
    (fun acc e =>
      if e.2.1 = "diff" then
        match diff_map e.1 with
        | some patch => max acc patch.largest_line_number
        | none => acc
      else acc)
    0

/-- The margin size `render_diff` computes once per rendering pass. -/
def margin_size_of (collection : List (String × String × String))
    (diff_map : String → Option Patch) : Nat :=
  max 3 ((toString (largest_line_number_of collection diff_map)).length + 1)

/-- `yield_lines_from`: wrap each element the iterator produces in a `Line`
with the given reference. -/
def yield_lines_from (rows : List (List Cell)) (reference : Reference) :
    List Line :=
  rows.map fun row => Line.mk row reference

/-- The characters a binary summary feeds to `yield_lines_from`: the source's
`binary_lines` returns a plain string, which Python iterates
character-by-character, so the source emits one `Line` per character of the
styled string.  Under this embedding's abstraction each visible character of
each cell yields one single-cell row carrying the enclosing cell's style,
while the style escape characters — zero-width, carried as style names, their
exact characters depending on the external `formats` config — yield none. -/
def binary_char_rows (row : List Cell) : List (List Cell) :=
  row.flatMap fun cell => cell.text.map fun ch => [Cell.mk cell.style [ch]]

/-- The second pass of `render_diff`, with the shared margin size as an
explicit argument: per diff entry, the title block, then either the binary
summary (emitted character-by-character, see `binary_char_rows`) or the diff
body.  `is_binary` abstracts the external
`isinstance(data_for_path(path), bytes)` test; a `diff_map` entry missing at
this point raises `KeyError` in the source and contributes no lines here. -/
def render_diff_body (cw : Char → Nat) (name_of : String → List Char)
    (is_binary : String → Bool) (txt : String → List Char)
    (lines_for_path : String → Nat → List Char)
    (collection : List (String × String × String))
    (diff_map : String → Option Patch) (columns margin_size : Nat) : List Line :=
  collection.flatMap fun e =>
    if e.2.1 = "diff" then
      yield_lines_from (title_lines cw name_of e.1 columns margin_size)
        (Reference.mk e.1 none) ++
      (if is_binary e.1 then
        yield_lines_from
          (binary_char_rows (binary_lines cw txt e.1 e.2.2 columns margin_size))
          (Reference.mk e.1 none)
      else
        match diff_map e.1 with
        | some patch =>
          lines_for_diff cw e.1 e.2.2 lines_for_path patch.hunks columns margin_size
        | none => [])
    else []

/-- `render_diff`: compute the shared margin size once from the first pass,
then render every entry of the collection with that one margin size. -/
def render_diff (cw : Char → Nat) (name_of : String → List Char)
    (is_binary : String → Bool) (txt : String → List Char)
    (lines_for_path : String → Nat → List Char)
    (collection : List (String × String × String))
    (diff_map : String → Option Patch) (columns : Nat) : List Line :=
  render_diff_body cw name_of is_binary txt lines_for_path collection diff_map
    columns (margin_size_of collection diff_map)

/-- A one-column-per-character width function, for concrete evaluations. -/
def cwOne : Char → Nat := fun _ => 1

/-- A two-columns-per-character width function, for concrete evaluations. -/
def cwTwo : Char → Nat := fun _ => 2

/-! ### Basic width lemmas -/

theorem wcswidth_nil (cw : Char → Nat) : wcswidth cw [] = 0 := rfl

theorem wcswidth_cons (cw : Char → Nat) (c : Char) (cs : List Char) :
    wcswidth cw (c :: cs) = cw c + wcswidth cw cs := by
  simp [wcswidth]

theorem wcswidth_append (cw : Char → Nat) (a b : List Char) :
    wcswidth cw (a ++ b) = wcswidth cw a + wcswidth cw b := by
  simp [wcswidth]

theorem wcswidth_replicate (cw : Char → Nat) (n : Nat) (c : Char) :
    wcswidth cw (List.replicate n c) = n * cw c := by
  simp [wcswidth, List.map_replicate, List.sum_replicate, smul_eq_mul]

/-- The cut point never exceeds the text length. -/
theorem truncate_point_le_length (cw : Char → Nat) (text : List Char) (n : Nat) :
    truncate_point_for_length cw text n ≤ text.length := by
  induction text generalizing n with
  | nil => simp [truncate_point_for_length]
  | cons c cs ih =>
    simp only [truncate_point_for_length]
    split
    · simpa using ih (n - cw c)
    · simp

/-- The prefix at the cut point fits in the requested width. -/
theorem wcswidth_take_truncate_point (cw : Char → Nat) (text : List Char) (n : Nat) :
    wcswidth cw (text.take (truncate_point_for_length cw text n)) ≤ n := by
  induction text generalizing n with
  | nil => simp [truncate_point_for_length, wcswidth]
  | cons c cs ih =>
    simp only [truncate_point_for_length]
    split
    · rename_i h
      simp only [List.take_succ_cons, wcswidth_cons]
      have := ih (n - cw c)
      omega
    · simp [wcswidth]

/-- A text that already fits is covered whole by its cut point. -/
theorem truncate_point_of_width_le (cw : Char → Nat) (text : List Char) (n : Nat)
    (h : wcswidth cw text ≤ n) :
    truncate_point_for_length cw text n = text.length := by
  induction text generalizing n with
  | nil => simp [truncate_point_for_length]
  | cons c cs ih =>
    rw [wcswidth_cons] at h
    simp only [truncate_point_for_length]
    rw [if_pos (by omega)]
    rw [ih (n - cw c) (by omega)]
    simp

/-- Conversely, a cut point covering the whole text means the text fits. -/
theorem width_le_of_truncate_point_ge (cw : Char → Nat) (text : List Char) (n : Nat)
    (h : text.length ≤ truncate_point_for_length cw text n) :
    wcswidth cw text ≤ n := by
  have hle := truncate_point_le_length cw text n
  have heq : truncate_point_for_length cw text n = text.length := le_antisymm hle h
  have := wcswidth_take_truncate_point cw text n
  rwa [heq, List.take_length] at this

/-! ### Width of fit, fill, place -/

/-- A text covered whole by its cut point is returned unchanged. -/
theorem fit_in_of_fits (cw : Char → Nat) (text : List Char) (count : Nat)
    (h : text.length ≤ truncate_point_for_length cw text count) :
    fit_in cw text count = text := by
  simp [fit_in, h]

/-- A text not covered by its cut point, at width above 1, is cut at the
point for one column less and an ellipsis is appended. -/
theorem fit_in_of_cut (cw : Char → Nat) (text : List Char) (count : Nat)
    (h : ¬ text.length ≤ truncate_point_for_length cw text count)
    (hcount : 1 < count) :
    fit_in cw text count =
      text.take (truncate_point_for_length cw text (count - 1)) ++ ['…'] := by
  simp [fit_in, h, hcount]

/-- A text not covered by its cut point, at width 0 or 1, is cut at that same
point and an ellipsis is appended. -/
theorem fit_in_of_cut_small (cw : Char → Nat) (text : List Char) (count : Nat)
    (h : ¬ text.length ≤ truncate_point_for_length cw text count)
    (hcount : ¬ 1 < count) :
    fit_in cw text count =
      text.take (truncate_point_for_length cw text count) ++ ['…'] := by
  simp [fit_in, h, hcount]

/-- When the requested width is at least 2 and the ellipsis is one column
wide, a fitted text never exceeds the requested width. -/
theorem wcswidth_fit_in_le (cw : Char → Nat) (text : List Char) (count : Nat)
    (hell : cw '…' = 1) (hcount : 2 ≤ count) :
    wcswidth cw (fit_in cw text count) ≤ count := by
  by_cases h : text.length ≤ truncate_point_for_length cw text count
  · rw [fit_in_of_fits cw text count h]
    exact width_le_of_truncate_point_ge cw text count h
  · rw [fit_in_of_cut cw text count h (by omega)]
    rw [wcswidth_append, wcswidth_cons, wcswidth_nil, hell]
    have := wcswidth_take_truncate_point cw text (count - 1)
    omega

/-- When spaces are one column wide, filling yields the larger of the text's
width and the requested size. -/
theorem wcswidth_fill_in (cw : Char → Nat) (text : List Char) (sz : Nat)
    (hsp : cw ' ' = 1) :
    wcswidth cw (fill_in cw text sz) = max (wcswidth cw text) sz := by
  simp only [fill_in]
  split
  · rename_i h
    rw [wcswidth_append, wcswidth_replicate, hsp]
    omega
  · rename_i h
    omega

/-- A filled text of prior width at most the size has width exactly the
size. -/
theorem wcswidth_fill_in_of_le (cw : Char → Nat) (text : List Char) (sz : Nat)
    (hsp : cw ' ' = 1) (hle : wcswidth cw text ≤ sz) :
    wcswidth cw (fill_in cw text sz) = sz := by
  rw [wcswidth_fill_in cw text sz hsp]
  omega

/-- The fixed-width cell contract: placing into a size of at least 2 yields
exactly that display width, given one-column space and ellipsis glyphs. -/
theorem wcswidth_place_in (cw : Char → Nat) (text : List Char) (sz : Nat)
    (hsp : cw ' ' = 1) (hell : cw '…' = 1) (hsz : 2 ≤ sz) :
    wcswidth cw (place_in cw text sz) = sz :=
  wcswidth_fill_in_of_le cw _ sz hsp (wcswidth_fit_in_le cw text sz hell hsz)

/-! ### Sanitize lemmas -/

/-- Hexadecimal digit characters are never control characters. -/
theorem isCtrl_hexDigitChar (n : Nat) : isCtrl (hexDigitChar n) = false := by
  have hall : ∀ x ∈ hexDigits, isCtrl x = false := by decide
  unfold hexDigitChar
  by_cases h : n < hexDigits.length
  · rw [List.getD_eq_getElem _ _ h]
    exact hall _ (List.getElem_mem h)
  · rw [List.getD_eq_default _ _ (by omega)]
    decide

/-- Every character of a hexadecimal rendering is a hexadecimal digit
character, hence not a control character. -/
theorem isCtrl_of_mem_toHexAux (fuel : Nat) :
    ∀ n, ∀ c ∈ toHexAux fuel n, isCtrl c = false := by
  induction fuel with
  | zero =>
    intro n c hc
    rcases List.mem_singleton.mp hc with rfl
    exact isCtrl_hexDigitChar n
  | succ fuel ih =>
    intro n c hc
    rw [toHexAux] at hc
    split at hc
    · rcases List.mem_singleton.mp hc with rfl
      exact isCtrl_hexDigitChar n
    · rcases List.mem_append.mp hc with h1 | h1
      · exact ih (n / 16) c h1
      · rcases List.mem_singleton.mp h1 with rfl
        exact isCtrl_hexDigitChar (n % 16)

/-- Every character of a hexadecimal rendering is outside the control
ranges. -/
theorem isCtrl_of_mem_toHex (n : Nat) : ∀ c ∈ toHex n, isCtrl c = false :=
  isCtrl_of_mem_toHexAux n n

/-- Every character of a sanitized text is outside the control ranges. -/
theorem isCtrl_of_mem_sanitize (text : List Char) :
    ∀ c ∈ sanitize text, isCtrl c = false := by
  intro c hc
  rcases List.mem_flatMap.mp hc with ⟨a, _, hmem⟩
  by_cases ha : isCtrl a
  · rw [if_pos ha] at hmem
    unfold sanitize_sub at hmem
    rcases List.mem_cons.mp hmem with rfl | h1
    · decide
    · rcases List.mem_append.mp h1 with h2 | h2
      · exact isCtrl_of_mem_toHex a.toNat c h2
      · rcases List.mem_singleton.mp h2 with rfl
        decide
  · rw [if_neg ha] at hmem
    rcases List.mem_singleton.mp hmem with rfl
    simpa using ha

/-- A text whose characters are all outside the control ranges sanitizes to
itself. -/
theorem sanitize_of_all_clean (text : List Char)
    (h : ∀ c ∈ text, isCtrl c = false) : sanitize text = text := by
  induction text with
  | nil => rfl
  | cons c cs ih =>
    unfold sanitize
    rw [List.flatMap_cons]
    rw [if_neg (by simpa using h c (List.mem_cons_self c cs))]
    have := ih fun x hx => h x (List.mem_cons_of_mem c hx)
    unfold sanitize at this
    rw [this]
    rfl

theorem split_rem_nil (cw : Char → Nat) (width n : Nat) :
    split_rem cw width n [] = [] := by
  induction n with
  | zero => rfl
  | succ n ih => simpa [split_rem, split_step, truncate_point_for_length] using ih

/-- When every character of the line fits the width, the loop exhausts the
line within `line.length` iterations. -/
theorem split_rem_eq_nil_of_fits (cw : Char → Nat) (width : Nat) :
    ∀ fuel line, line.length ≤ fuel → (∀ c ∈ line, cw c ≤ width) →
      split_rem cw width fuel line = [] := by
  intro fuel
  induction fuel with
  | zero =>
    intro line hlen _
    have h0 : line = [] := List.length_eq_zero.mp (Nat.le_zero.mp hlen)
    subst h0
    rfl
  | succ fuel ih =>
    intro line hlen hfit
    cases line with
    | nil => exact split_rem_nil cw width _
    | cons c cs =>
      have hc : cw c ≤ width := hfit c (List.mem_cons_self c cs)
      have hp : 0 < truncate_point_for_length cw (c :: cs) width := by
        simp only [truncate_point_for_length]
        rw [if_pos hc]
        omega
      show split_rem cw width fuel (split_step cw width (c :: cs)).2 = []
      apply ih
      · simp only [split_step, List.length_drop, List.length_cons]
        simp only [List.length_cons] at hlen
        omega
      · intro x hx
        exact hfit x (List.mem_of_mem_drop hx)

/-- Core behaviour of the materialized loop under sufficient fuel: the
segments concatenate back to the line, and each is width-bounded and
nonempty. -/
theorem splitFuel_spec (cw : Char → Nat) (width : Nat) :
    ∀ fuel line, line.length ≤ fuel → (∀ c ∈ line, cw c ≤ width) →
      (splitFuel cw width fuel line).flatten = line ∧
      ∀ seg ∈ splitFuel cw width fuel line,
        wcswidth cw seg ≤ width ∧ seg ≠ [] := by
  intro fuel
  induction fuel with
  | zero =>
    intro line hlen _
    have h0 : line = [] := List.length_eq_zero.mp (Nat.le_zero.mp hlen)
    subst h0
    exact ⟨rfl, by simp [splitFuel]⟩
  | succ fuel ih =>
    intro line hlen hfit
    cases line with
    | nil => exact ⟨rfl, by simp [splitFuel]⟩
    | cons c cs =>
      have hc : cw c ≤ width := hfit c (List.mem_cons_self c cs)
      have hp : 0 < truncate_point_for_length cw (c :: cs) width := by
        simp only [truncate_point_for_length]
        rw [if_pos hc]
        omega
      have hdroplen :
          ((c :: cs).drop (truncate_point_for_length cw (c :: cs) width)).length ≤ fuel := by
        simp only [List.length_drop, List.length_cons]
        simp only [List.length_cons] at hlen
        omega
      have hdropfit : ∀ x ∈ (c :: cs).drop (truncate_point_for_length cw (c :: cs) width),
          cw x ≤ width := fun x hx => hfit x (List.mem_of_mem_drop hx)
      obtain ⟨ihflat, ihseg⟩ := ih _ hdroplen hdropfit
      constructor
      · simp only [splitFuel, List.flatten_cons]
        rw [ihflat, List.take_append_drop]
      · intro seg hseg
        simp only [splitFuel, List.mem_cons] at hseg
        rcases hseg with rfl | hseg
        · refine ⟨wcswidth_take_truncate_point cw (c :: cs) width, ?_⟩
          obtain ⟨q, hq⟩ := Nat.exists_eq_add_of_lt hp
          rw [hq]
          simp [List.take_succ_cons]
        · exact ihseg seg hseg

/-! ### Hexadecimal marker lengths -/

theorem toHexAux_length_of_lt (fuel m : Nat) (h : m < 16) :
    (toHexAux fuel m).length = 1 := by
  cases fuel with
  | zero => rfl
  | succ fuel =>
    rw [toHexAux, if_pos h]
    rfl

theorem toHex_length_of_lt (n : Nat) (h : n < 16) : (toHex n).length = 1 :=
  toHexAux_length_of_lt n n h

theorem toHex_length_of_ge (n : Nat) (h16 : 16 ≤ n) (h256 : n < 256) :
    (toHex n).length = 2 := by
  obtain ⟨k, rfl⟩ : ∃ k, n = k + 1 := ⟨n - 1, by omega⟩
  show (toHexAux (k + 1) (k + 1)).length = 2
  rw [toHexAux, if_neg (by omega)]
  rw [List.length_append, toHexAux_length_of_lt k ((k + 1) / 16) (by omega)]
  rfl

/-- Control characters have code points below 256. -/
theorem toNat_lt_of_isCtrl (c : Char) (h : isCtrl c = true) : c.toNat < 256 := by
  simp only [isCtrl, Bool.or_eq_true, decide_eq_true_eq, beq_iff_eq,
    Bool.and_eq_true] at h
  omega

/-! ### Claim C1 -/

/-- C1: the claim fails as stated for width 1: placing the two-character text
ab into width 1 yields a ellipsis-truncated cell of display width 2, not 1
(all characters one column wide). -/
theorem C1_counterexample :
    wcswidth cwOne (place_in cwOne ['a', 'b'] 1) = 2 ∧ (2 : Nat) ≠ 1 := by
  constructor
  · rfl
  · decide

/-- C1 (amended): for every text and every requested width of at least 2,
`place_in` (pad applied after fit) returns a string whose display width is
exactly the requested width — never more, never less — given the one-column
space and ellipsis glyphs of the width contract. -/
theorem C1_place_in_exact_width (cw : Char → Nat) (text : List Char) (sz : Nat)
    (hsp : cw ' ' = 1) (hell : cw '…' = 1) (hsz : 2 ≤ sz) :
    wcswidth cw (place_in cw text sz) = sz :=
  wcswidth_place_in cw text sz hsp hell hsz

/-- Witness for C1 at a concrete input. -/
theorem C1_witness :
    cwOne ' ' = 1 ∧ cwOne '…' = 1 ∧ 2 ≤ 3 ∧
      wcswidth cwOne (place_in cwOne ['h', 'e', 'l', 'l', 'o'] 3) = 3 :=
  ⟨rfl, rfl, by omega,
    C1_place_in_exact_width cwOne ['h', 'e', 'l', 'l', 'o'] 3 rfl rfl (by omega)⟩

/-! ### Claim C2 -/

/-- C2: the claim fails as stated for width 1: fitting the two-character text
ab into width 1 cuts at the point for width 1 and appends the ellipsis,
giving display width 2 (all characters one column wide). -/
theorem C2_counterexample :
    wcswidth cwOne (fit_in cwOne ['a', 'b'] 1) = 2 ∧ ¬ (2 : Nat) ≤ 1 := by
  constructor
  · rfl
  · decide

/-- C2 (amended): for every text and every width of at least 2, the display
width of `fit_in` is at most the width; a text that already fits is returned
unchanged, and otherwise the text is cut at the cut point for one column
less and a single ellipsis glyph is appended. -/
theorem C2_fit_in_truncation_safety (cw : Char → Nat) (text : List Char) (sz : Nat)
    (hell : cw '…' = 1) (hsz : 2 ≤ sz) :
    wcswidth cw (fit_in cw text sz) ≤ sz ∧
    (wcswidth cw text ≤ sz → fit_in cw text sz = text) ∧
    (sz < wcswidth cw text →
      fit_in cw text sz =
        text.take (truncate_point_for_length cw text (sz - 1)) ++ ['…']) := by
  refine ⟨wcswidth_fit_in_le cw text sz hell hsz, ?_, ?_⟩
  · intro h
    exact fit_in_of_fits cw text sz
      (le_of_eq (truncate_point_of_width_le cw text sz h).symm)
  · intro h
    apply fit_in_of_cut cw text sz ?_ (by omega)
    intro hge
    exact absurd (width_le_of_truncate_point_ge cw text sz hge) (by omega)

/-- Witness for C2 at a concrete input. -/
theorem C2_witness :
    cwOne '…' = 1 ∧ 2 ≤ 2 ∧ wcswidth cwOne (fit_in cwOne ['a', 'b', 'c', 'd'] 2) ≤ 2 :=
  ⟨rfl, by omega,
    (C2_fit_in_truncation_safety cwOne ['a', 'b', 'c', 'd'] 2 rfl (by omega)).1⟩

/-! ### Claim C6 -/

/-- C6: the marker is not two-digit for code points below 16 (the bell
character becomes the marker with single digit 7, not 07), and it is not 3
characters for code points of two hexadecimal digits (0x1f yields a
4-character marker). -/
theorem C6_counterexample :
    sanitize [Char.ofNat 0x07] = ['<', '7', '>'] ∧
    sanitize [Char.ofNat 0x07] ≠ ['<', '0', '7', '>'] ∧
    sanitize [Char.ofNat 0x1f] = ['<', '1', 'f', '>'] ∧
    (sanitize [Char.ofNat 0x1f]).length ≠ 3 := by
  refine ⟨rfl, by decide, rfl, by decide⟩

/-- C6 (amended): `sanitize` acts character-wise; every character in the
control ranges is replaced by a marker of the form open-angle, lowercase
hexadecimal value without leading zeros, close-angle — 3 characters for code
points below 0x10 and 4 characters for the remaining control code points —
and every other character is left unchanged. -/
theorem C6_sanitize_charwise (text : List Char) :
    sanitize text = (text.map fun c => sanitize [c]).flatten ∧
    ∀ c ∈ text,
      (isCtrl c = true →
        sanitize [c] = '<' :: (toHex c.toNat ++ ['>']) ∧
        (c.toNat < 16 → (sanitize [c]).length = 3) ∧
        (16 ≤ c.toNat → (sanitize [c]).length = 4)) ∧
      (isCtrl c = false → sanitize [c] = [c]) := by
  constructor
  · induction text with
    | nil => rfl
    | cons c cs ih =>
      show sanitize (c :: cs) = sanitize [c] ++ (cs.map fun c => sanitize [c]).flatten
      rw [← ih]
      simp [sanitize]
  · intro c _
    constructor
    · intro h
      have hmark : sanitize [c] = '<' :: (toHex c.toNat ++ ['>']) := by
        simp [sanitize, sanitize_sub, h]
      refine ⟨hmark, ?_, ?_⟩
      · intro hlt
        rw [hmark]
        simp [toHex_length_of_lt c.toNat hlt]
      · intro hge
        rw [hmark]
        simp [toHex_length_of_ge c.toNat hge (toNat_lt_of_isCtrl c h)]
    · intro h
      simp [sanitize, h]

/-- Witness for C6 (amended) at a concrete control character. -/
theorem C6_witness :
    sanitize [Char.ofNat 0x81] = ['<', '8', '1', '>'] ∧
    (sanitize [Char.ofNat 0x81]).length = 4 := by
  have h := ((C6_sanitize_charwise [Char.ofNat 0x81]).2 (Char.ofNat 0x81)
    (List.mem_singleton.mpr rfl)).1 (by decide)
  refine ⟨?_, h.2.2 (by decide)⟩
  rw [h.1]
  decide

/-! ### Claim C7 -/

/-- C7: `sanitize` is idempotent: sanitizing a sanitized text changes
nothing, since every character a sanitization emits is outside the control
ranges. -/
theorem C7_sanitize_idempotent (text : List Char) :
    sanitize (sanitize text) = sanitize text :=
  sanitize_of_all_clean _ (isCtrl_of_mem_sanitize text)

/-! ### Claim C8 -/

/-- C8: the claim fails as stated: with every character two columns wide and
wrap width 1, the cut point on a nonempty line is 0, so each loop iteration
yields the empty segment and leaves the line unchanged — the generator never
terminates. -/
theorem C8_counterexample : ¬ split_terminates cwTwo 1 ['W'] := by
  rintro ⟨n, hn⟩
  have h : ∀ m, split_rem cwTwo 1 m ['W'] = ['W'] := by
    intro m
    induction m with
    | zero => rfl
    | succ m ih =>
      simpa [split_rem, split_step, truncate_point_for_length, cwTwo] using ih
  rw [h n] at hn
  exact absurd hn (by decide)

/-- C8 (amended): whenever every character of the line fits the wrap width,
`split_to_size` terminates within one iteration per character and yields a
finite sequence of width-bounded, nonempty segments that concatenate back to
the line, consumed left to right; the empty line yields the empty sequence
of segments. -/
theorem C8_split_to_size_total (cw : Char → Nat) (line : List Char) (width : Nat)
    (hfit : ∀ c ∈ line, cw c ≤ width) :
    split_rem cw width line.length line = [] ∧
    (split_to_size cw line width).flatten = line ∧
    (∀ seg ∈ split_to_size cw line width, wcswidth cw seg ≤ width ∧ seg ≠ []) ∧
    split_to_size cw [] width = [] := by
  obtain ⟨hflat, hseg⟩ := splitFuel_spec cw width line.length line le_rfl hfit
  exact ⟨split_rem_eq_nil_of_fits cw width line.length line le_rfl hfit,
    hflat, hseg, rfl⟩

/-- Witness for C8 (amended) at a concrete input. -/
theorem C8_witness :
    split_rem cwOne 3 6 ['a', 'b', 'c', 'd', 'e', 'f'] = [] ∧
    (split_to_size cwOne ['a', 'b', 'c', 'd', 'e', 'f'] 3).flatten =
      ['a', 'b', 'c', 'd', 'e', 'f'] := by
  have h := C8_split_to_size_total cwOne ['a', 'b', 'c', 'd', 'e', 'f'] 3
    (fun c _ => by unfold cwOne; omega)
  exact ⟨h.1, h.2.1⟩

/-! ### Claim C10 -/

/-- C10: a line number of 0 renders the margin cell exactly as an absent line
number does (Python `0 or ''` is the empty string), while the row type — and
with it the content styling — is still chosen by the `is None` test, so 0
selects context or add/remove, never filler. -/
theorem C10_zero_line_number (cw : Char → Nat) (text : List Char) (lt : String)
    (margin_size available_cols : Nat) (ch : Bool) :
    render_diff_line cw (some 0) text lt margin_size available_cols =
      render_diff_line cw none text lt margin_size available_cols ∧
    ltype_of (some 0) ch = (if ch then "remove" else "context") ∧
    rtype_of (some 0) ch = (if ch then "add" else "context") ∧
    ltype_of none ch = "filler" ∧
    rtype_of none ch = "filler" := by
  refine ⟨?_, rfl, rfl, rfl, rfl⟩
  show render_diff_line cw (some 0) text lt margin_size available_cols =
    render_diff_line cw none text lt margin_size available_cols
  rfl

/-! ### Claim C9 -/

/-- C9: a hunk line pair in which each side contributes no wrapped segments —
the side's line number is absent, or its looked-up text is the empty
string — leaves no row in the output: `pair_rows` is empty for it, and a
hunk consisting of such a pair adds no display line, no filler row and no
visible line number. -/
theorem C9_empty_pair_emits_nothing (cw : Char → Nat) (lp rp : String)
    (lfp : String → Nat → List Char) (columns margin_size : Nat)
    (l r : Option Nat × Bool)
    (hl : ∀ k, l.1 = some k → lfp lp k = [])
    (hr : ∀ k, r.1 = some k → lfp rp k = []) :
    pair_rows cw (lfp lp) (lfp rp) (columns / 2 - margin_size) margin_size
      (l, r) = [] ∧
    lines_for_diff cw lp rp lfp [Hunk.mk [l] [r]] columns margin_size = [] := by
  obtain ⟨ln, lc⟩ := l
  obtain ⟨rn, rc⟩ := r
  have hpr : pair_rows cw (lfp lp) (lfp rp) (columns / 2 - margin_size)
      margin_size ((ln, lc), (rn, rc)) = [] := by
    cases ln with
    | none =>
      cases rn with
      | none => rfl
      | some k =>
        have h1 := hr k rfl
        simp [pair_rows, split_to_size, splitFuel, h1, even_up_sides]
    | some k =>
      have h0 := hl k rfl
      cases rn with
      | none => simp [pair_rows, split_to_size, splitFuel, h0, even_up_sides]
      | some k2 =>
        have h1 := hr k2 rfl
        simp [pair_rows, split_to_size, splitFuel, h0, h1, even_up_sides]
  refine ⟨hpr, ?_⟩
  simp [lines_for_diff, hpr]

/-- Witness for C9 at a concrete input: left side line number 3 whose text is
empty, right side absent. -/
theorem C9_witness :
    pair_rows cwOne ((fun _ _ => []) "a") ((fun _ _ => []) "b") (10 / 2 - 3) 3
      ((some 3, true), (none, false)) = [] ∧
    lines_for_diff cwOne "a" "b" (fun _ _ => [])
      [Hunk.mk [(some 3, true)] [(none, false)]] 10 3 = [] :=
  C9_empty_pair_emits_nothing cwOne "a" "b" (fun _ _ => []) 10 3
    (some 3, true) (none, false) (fun _ _ => rfl) (fun _ _ => rfl)

/-! ### Claim C3 -/

/-- Zipping truncates both lists to their common length. -/
theorem zip_take_min {α β : Type} (l : List α) (r : List β) :
    (l.take (min l.length r.length)).zip (r.take (min l.length r.length)) =
      l.zip r := by
  induction l generalizing r with
  | nil => simp
  | cons a l ih =>
    cases r with
    | nil => simp
    | cons b r =>
      simp only [List.length_cons, Nat.succ_min_succ, List.take_succ_cons,
        List.zip_cons_cons]
      rw [ih r]

/-- C3: the claim fails as stated: on a hunk whose left side has two entries
and whose right side has one, `lines_for_diff` raises nothing and emits
exactly the rows of the truncated hunk — one row here — silently dropping
the extra left entry. -/
theorem C3_counterexample :
    (Hunk.mk [(some 0, false), (some 1, false)] [(some 0, false)]).left_lines.length = 2 ∧
    (Hunk.mk [(some 0, false), (some 1, false)] [(some 0, false)]).right_lines.length = 1 ∧
    lines_for_diff cwOne "L" "R" (fun _ _ => ['x'])
        [Hunk.mk [(some 0, false), (some 1, false)] [(some 0, false)]] 10 3 =
      lines_for_diff cwOne "L" "R" (fun _ _ => ['x'])
        [Hunk.mk [(some 0, false)] [(some 0, false)]] 10 3 ∧
    (lines_for_diff cwOne "L" "R" (fun _ _ => ['x'])
        [Hunk.mk [(some 0, false), (some 1, false)] [(some 0, false)]] 10 3).length
      = 1 := by
  refine ⟨rfl, rfl, by decide, rfl⟩

/-- C3 (amended): rendering a hunk whose left and right sequences have
unequal length does not abort and raises no diagnostic: Python's `zip` stops
at the shorter side, so the driver's output equals its output for the hunk
truncated to the shorter of the two sides. -/
theorem C3_unequal_hunk_silently_truncated (cw : Char → Nat) (lp rp : String)
    (lfp : String → Nat → List Char) (h : Hunk) (columns margin_size : Nat) :
    lines_for_diff cw lp rp lfp [h] columns margin_size =
      lines_for_diff cw lp rp lfp
        [Hunk.mk
          (h.left_lines.take (min h.left_lines.length h.right_lines.length))
          (h.right_lines.take (min h.left_lines.length h.right_lines.length))]
        columns margin_size := by
  have hz := zip_take_min h.left_lines h.right_lines
  simp only [lines_for_diff, List.enum, List.enumFrom, List.flatMap_cons,
    List.flatMap_nil, List.append_nil]
  rw [hz]

/-! ### Claim C4 -/

/-- The value of an enumerated element belongs to the underlying list. -/
theorem snd_mem_of_mem_enum {α : Type} {l : List α} {x : Nat × α}
    (h : x ∈ l.enum) : x.2 ∈ l :=
  List.getElem?_mem (List.mem_enum_iff_getElem?.mp h)

/-- Every segment the wrap loop yields is width-bounded, with no hypothesis
on the characters: a segment is a prefix at a cut point. -/
theorem wcswidth_of_mem_splitFuel (cw : Char → Nat) (width : Nat) :
    ∀ fuel line seg, seg ∈ splitFuel cw width fuel line →
      wcswidth cw seg ≤ width := by
  intro fuel
  induction fuel with
  | zero =>
    intro line seg hseg
    cases line with
    | nil => simp [splitFuel] at hseg
    | cons c cs => simp [splitFuel] at hseg
  | succ fuel ih =>
    intro line seg hseg
    cases line with
    | nil => simp [splitFuel] at hseg
    | cons c cs =>
      simp only [splitFuel, List.mem_cons] at hseg
      rcases hseg with rfl | hseg
      · exact wcswidth_take_truncate_point cw (c :: cs) width
      · exact ih _ seg hseg

/-- A rendered pair row has display width twice the margin size plus the
available columns, whenever both segments fit the available columns. -/
theorem rowWidth_render_diff_pair (cw : Char → Nat) (ln rn : Option Nat)
    (l r : List Char) (lch rch first : Bool) (m a : Nat)
    (hsp : cw ' ' = 1) (hell : cw '…' = 1) (hm : 2 ≤ m)
    (hl : wcswidth cw l ≤ a) (hr : wcswidth cw r ≤ a) :
    rowWidth cw (render_diff_pair cw ln l lch rn r rch first m a) =
      2 * (m + a) := by
  simp only [render_diff_pair, render_diff_line, rowWidth, List.map_append,
    List.map_cons, List.map_nil, List.sum_append, List.sum_cons, List.sum_nil]
  rw [wcswidth_place_in cw _ m hsp hell hm, wcswidth_place_in cw _ m hsp hell hm,
    wcswidth_fill_in_of_le cw l a hsp hl, wcswidth_fill_in_of_le cw r a hsp hr]
  ring

/-- Every row of a hunk line pair has display width twice the margin size
plus the available columns. -/
theorem rowWidth_of_mem_pair_rows (cw : Char → Nat) (ls rs : Nat → List Char)
    (a m : Nat) (lr : (Option Nat × Bool) × (Option Nat × Bool))
    (hsp : cw ' ' = 1) (hell : cw '…' = 1) (hm : 2 ≤ m) :
    ∀ row ∈ pair_rows cw ls rs a m lr, rowWidth cw row = 2 * (m + a) := by
  intro row hrow
  simp only [pair_rows, List.mem_map] at hrow
  obtain ⟨ip, hip, rfl⟩ := hrow
  obtain ⟨i, s, t⟩ := ip
  have hzip : (s, t) ∈
      (even_up_sides
        (match lr.1.1 with
          | none => []
          | some k => split_to_size cw (ls k) a)
        (match lr.2.1 with
          | none => []
          | some k => split_to_size cw (rs k) a) []).1.zip
      (even_up_sides
        (match lr.1.1 with
          | none => []
          | some k => split_to_size cw (ls k) a)
        (match lr.2.1 with
          | none => []
          | some k => split_to_size cw (rs k) a) []).2 :=
    snd_mem_of_mem_enum hip
  obtain ⟨hs, ht⟩ := List.of_mem_zip hzip
  have hside : ∀ (store : Nat → List Char) (n : Option Nat) (pad : Nat)
      (seg : List Char),
      seg ∈ (match n with
        | none => ([] : List (List Char))
        | some k => split_to_size cw (store k) a) ++ List.replicate pad [] →
      wcswidth cw seg ≤ a := by
    intro store n pad seg hseg
    rcases List.mem_append.mp hseg with hseg | hseg
    · cases n with
      | none => simp at hseg
      | some k => exact wcswidth_of_mem_splitFuel cw a _ _ seg hseg
    · rw [List.eq_of_mem_replicate hseg]
      exact Nat.zero_le a
  apply rowWidth_render_diff_pair cw _ _ _ _ _ _ _ m a hsp hell hm
  · exact hside ls lr.1.1 _ s hs
  · exact hside rs lr.2.1 _ t ht

/-- C4: the claim fails as stated for an odd terminal width: with 11 columns
and margin 3 the one diff row produced has display width 10, not 11 (each
half is margin 3 plus content 11 div 2 minus 3 = 2). -/
theorem C4_counterexample :
    (lines_for_diff cwOne "L" "R" (fun _ _ => ['a'])
        [Hunk.mk [(some 1, false)] [(some 1, false)]] 11 3).map
      (fun ℓ => rowWidth cwOne ℓ.text) = [10] ∧ (10 : Nat) ≠ 11 := by
  refine ⟨by decide, by decide⟩

/-- C4 (amended): for every margin size of at least 2 and every terminal
column count leaving at least 2 available content columns per side
(margin_size + 2 ≤ columns div 2; a real render has margin size at least 3),
each display line the renderer produces for a file pair — diff rows and
binary-file summary rows alike — has display width
2 × (margin_size + available_cols) = 2 × (columns div 2): equal to the
terminal width exactly when the column count is even, and one column short
when it is odd.  The space and ellipsis glyphs are one column wide per the
width contract.  Both restrictions are necessary: the original claim fails
at odd column counts (see the counterexample), and with fewer than 2
available columns the placed cells can overflow (placing into width 1 can
yield width 2, as in C1). -/
theorem C4_fixed_row_width (cw : Char → Nat) (lp rp : String)
    (lfp : String → Nat → List Char) (hunks : List Hunk)
    (columns margin_size : Nat) (txt : String → List Char)
    (path other_path : String)
    (hsp : cw ' ' = 1) (hell : cw '…' = 1) (hm : 2 ≤ margin_size)
    (hac : 2 ≤ columns / 2 - margin_size) :
    (∀ ℓ ∈ lines_for_diff cw lp rp lfp hunks columns margin_size,
      rowWidth cw ℓ.text = 2 * (columns / 2)) ∧
    rowWidth cw (binary_lines cw txt path other_path columns margin_size) =
      2 * (columns / 2) := by
  constructor
  · intro ℓ hmem
    simp only [lines_for_diff, List.mem_flatMap, List.mem_map] at hmem
    obtain ⟨hp, _, lpair, _, row, hrow, rfl⟩ := hmem
    have := rowWidth_of_mem_pair_rows cw (lfp lp) (lfp rp)
      (columns / 2 - margin_size) margin_size lpair.2 hsp hell hm row hrow
    rw [show margin_size + (columns / 2 - margin_size) = columns / 2 by omega] at this
    exact this
  · simp only [binary_lines, rowWidth, List.map_append, List.map_cons,
      List.map_nil, List.sum_append, List.sum_cons, List.sum_nil]
    rw [wcswidth_replicate, hsp, wcswidth_place_in cw (txt path) _ hsp hell hac,
      wcswidth_place_in cw (txt other_path) _ hsp hell hac]
    omega

/-- Witness for C4 (amended) at a concrete input. -/
theorem C4_witness :
    cwOne ' ' = 1 ∧ 2 ≤ 12 / 2 - 3 ∧
    rowWidth cwOne (binary_lines cwOne (fun _ => ['z']) "p" "q" 12 3) =
      2 * (12 / 2) :=
  ⟨rfl, by omega,
    (C4_fixed_row_width cwOne "L" "R" (fun _ _ => []) [] 12 3 (fun _ => ['z'])
      "p" "q" rfl rfl (by omega) (by omega)).2⟩

/-! ### Claim C5 -/

/-- Every line of a diff body starts with a margin cell placed to the margin
size, hence of display width exactly that margin size. -/
theorem margin_cell_of_mem_lines_for_diff (cw : Char → Nat) (lp rp : String)
    (lfp : String → Nat → List Char) (hunks : List Hunk) (columns m : Nat)
    (hsp : cw ' ' = 1) (hell : cw '…' = 1) (hm : 2 ≤ m) :
    ∀ ℓ ∈ lines_for_diff cw lp rp lfp hunks columns m,
      ∃ cell rest, ℓ.text = cell :: rest ∧ wcswidth cw cell.text = m := by
  intro ℓ hmem
  simp only [lines_for_diff, List.mem_flatMap, List.mem_map] at hmem
  obtain ⟨hp, _, lpair, _, row, hrow, rfl⟩ := hmem
  simp only [pair_rows, List.mem_map] at hrow
  obtain ⟨ip, _, rfl⟩ := hrow
  exact ⟨_, _, rfl, wcswidth_place_in cw _ m hsp hell hm⟩

/-- C5: the margin width is computed once per rendering pass, as the larger
of 3 and one more than the length of the decimal rendering of the largest
line number across all diff entries, and every diff-body line emitted
anywhere within that one render call — regardless of which file produced
it — begins with a margin cell of exactly that one shared width. -/
theorem C5_margin_computed_once_and_shared (cw : Char → Nat)
    (name_of : String → List Char) (is_binary : String → Bool)
    (txt : String → List Char) (lfp : String → Nat → List Char)
    (collection : List (String × String × String))
    (diff_map : String → Option Patch) (columns : Nat)
    (hsp : cw ' ' = 1) (hell : cw '…' = 1) :
    render_diff cw name_of is_binary txt lfp collection diff_map columns =
      render_diff_body cw name_of is_binary txt lfp collection diff_map columns
        (max 3 ((toString (largest_line_number_of collection diff_map)).length + 1)) ∧
    ∀ ℓ ∈ render_diff cw name_of is_binary txt lfp collection diff_map columns,
      ℓ.ref.extra ≠ none →
      ∃ cell rest, ℓ.text = cell :: rest ∧
        wcswidth cw cell.text = margin_size_of collection diff_map := by
  refine ⟨rfl, ?_⟩
  intro ℓ hmem hextra
  simp only [render_diff, render_diff_body, List.mem_flatMap] at hmem
  obtain ⟨e, _, hin⟩ := hmem
  by_cases hdiff : e.2.1 = "diff"
  · rw [if_pos hdiff] at hin
    rcases List.mem_append.mp hin with hin | hin
    · simp only [yield_lines_from, List.mem_map] at hin
      obtain ⟨row, _, rfl⟩ := hin
      simp at hextra
    · by_cases hbin : is_binary e.1
      · rw [if_pos hbin] at hin
        simp only [yield_lines_from, List.mem_map] at hin
        obtain ⟨row, _, rfl⟩ := hin
        simp at hextra
      · rw [if_neg hbin] at hin
        cases hdm : diff_map e.1 with
        | none =>
          rw [hdm] at hin
          simp at hin
        | some patch =>
          rw [hdm] at hin
          exact margin_cell_of_mem_lines_for_diff cw e.1 e.2.2 lfp patch.hunks
            columns _ hsp hell (le_trans (by omega) (Nat.le_max_left 3 _)) ℓ hin
  · rw [if_neg hdiff] at hin
    simp at hin

/-- Witness for C5 at a concrete one-entry collection. -/
theorem C5_witness :
    cwOne ' ' = 1 ∧
    render_diff cwOne (fun _ => ['n']) (fun _ => false) (fun _ => [])
        (fun _ _ => ['t']) [("p", "diff", "q")]
        (fun _ => some (Patch.mk [Hunk.mk [(some 120, true)] [(some 120, true)]] 120))
        12 =
      render_diff_body cwOne (fun _ => ['n']) (fun _ => false) (fun _ => [])
        (fun _ _ => ['t']) [("p", "diff", "q")]
        (fun _ => some (Patch.mk [Hunk.mk [(some 120, true)] [(some 120, true)]] 120))
        12
        (max 3 ((toString (largest_line_number_of [("p", "diff", "q")]
          (fun _ => some (Patch.mk [Hunk.mk [(some 120, true)] [(some 120, true)]]
            120)))).length + 1)) :=
  ⟨rfl,
    (C5_margin_computed_once_and_shared cwOne (fun _ => ['n']) (fun _ => false)
      (fun _ => []) (fun _ _ => ['t']) [("p", "diff", "q")]
      (fun _ => some (Patch.mk [Hunk.mk [(some 120, true)] [(some 120, true)]] 120))
      12 rfl rfl).1⟩

end KittyDiffRender
